import Mathlib

/-!
Verification of the Iris bootstrap seed generators (proto/bootstrap/scan.go,
proto/bootstrap/probe.go) against their specification.

The Go code is shallowly embedded: byte sequences become `List Nat` (each
byte < 256 under the well-formedness predicate `WfNet`), Go `int` becomes
`Int`, channels become explicit interaction schedules, and the two
background loops become step functions driven by fuel.
-/

namespace Bootstrap

/-! ## Byte-sequence values -/

/-- Value of a little-endian byte list (head is the least significant byte). -/
def leVal : List Nat → Nat
  | [] => 0
  | b :: t => b + 256 * leVal t

/-- Value of a big-endian byte list, as stored in a `net.IP`. -/
def beVal (l : List Nat) : Nat := leVal l.reverse

/-- OR the base-256 digits of `v` into a little-endian byte list.
Models the Go loop `for i := len(host)-1; i >= 0; i-- { host[i] |= byte(nextIP & 255); nextIP >>= 8 }`
after reversing the byte order. -/
def orLE : List Nat → Nat → List Nat
  | [], _ => []
  | b :: t, v => (b ||| v % 256) :: orLE t (v / 256)

/-- OR the digits of `v` into a big-endian byte list starting from the last byte,
exactly as the Go emission loop does. -/
def orBE (host : List Nat) (v : Nat) : List Nat := (orLE host.reverse v).reverse

/-! ## Go `net` standard library model (used by the seeders) -/

/-- Model of the inner loop of Go `net.simpleMaskLength`:
`for v&0x80 != 0 { n++; v <<= 1 }` on a byte, with fuel 8 (a byte has 8 bits,
so 8 iterations always reach the fixed point for inputs below 256).
Returns the count of leading one bits and the final shifted value. -/
def highOnesAux : Nat → Nat → Nat × Nat
  | 0, v => (0, v)
  | f + 1, v =>
    if v &&& 128 ≠ 0 then
      let p := highOnesAux f ((v * 2) % 256)
      (p.1 + 1, p.2)
    else (0, v)

/-- Model of Go `net.simpleMaskLength`: number of leading one bits of a mask in
canonical form (ones followed by zeros), `none` for a non-canonical mask. -/
def simpleMaskLength : List Nat → Option Nat
  | [] => some 0
  | v :: rest =>
    if v = 255 then (simpleMaskLength rest).map (fun n => n + 8)
    else
      let p := highOnesAux 8 v
      if p.2 ≠ 0 then none
      else if rest.all (fun b => b = 0) then some p.1
      else none

/-- Model of Go `net.IPMask.Size`: `(ones, bits)`, or `(0, 0)` when the mask is
not in canonical form. -/
def maskSize (mask : List Nat) : Nat × Nat :=
  match simpleMaskLength mask with
  | none => (0, 0)
  | some n => (n, 8 * mask.length)

/-- The IPv4-in-IPv6 prefix used by Go `net.IP.Mask`. -/
def v4InV6Pre : List Nat := [0, 0, 0, 0, 0, 0, 0, 0, 0, 0, 255, 255]

/-- Model of Go `net.IP.Mask`: byte-wise AND after the 4-byte/16-byte
adjustments, `[]` (Go `nil`) on a length mismatch. -/
def goMask (ip mask : List Nat) : List Nat :=
  let mask1 :=
    if mask.length = 16 ∧ ip.length = 4 ∧ (mask.take 12).all (fun b => b = 255) then
      mask.drop 12
    else mask
  let ip1 :=
    if mask1.length = 4 ∧ ip.length = 16 ∧ ip.take 12 = v4InV6Pre then
      ip.drop 12
    else ip
  if ip1.length = mask1.length then List.zipWith (fun a b => a &&& b) ip1 mask1 else []

/-! ## The subnet data and the address space computations of the seeders -/

/-- A `net.IPNet`: base address and mask, both big-endian byte sequences. -/
structure IPNet where
  ip : List Nat
  mask : List Nat
deriving DecidableEq

/-- Well-formed subnet: address and mask have the same width and all bytes are
actual bytes. -/
def WfNet (net : IPNet) : Prop :=
  net.ip.length = net.mask.length ∧ (∀ b ∈ net.ip, b < 256) ∧ ∀ b ∈ net.mask, b < 256

instance (net : IPNet) : Decidable (WfNet net) := by
  unfold WfNet
  infer_instance

/-- Number of occurrences of the address `a` in an emitted address list. -/
def countAddr (a : List Nat) (l : List (List Nat)) : Nat :=
  (l.filter (fun x => x = a)).length

/-- `hostBits := maskBits - subnetBits` as computed by both seeders from
`s.ipnet.Mask.Size()`. -/
def hostBits (net : IPNet) : Nat :=
  (maskSize net.mask).2 - (maskSize net.mask).1

/-- The scan origin computed by `scanSeeder.run`:
`hostIP += int(s.ipnet.IP[len(s.ipnet.IP)-1-i/8]) & (1 << uint(i%8))` for
`i < hostBits`.  Note the masked bit is added at weight `2^(i%8)`, not shifted
to weight `2^i`. -/
def hostIPof (net : IPNet) : Nat :=
  (List.range (hostBits net)).foldl
    (fun acc i => acc + (net.ip.getD (net.ip.length - 1 - i / 8) 0 &&& (1 <<< (i % 8)))) 0

/-- The address emitted for host offset `v`: the masked base address with the
bytes of `v` ORed in from the last byte backwards, exactly as both run loops
build `host`. -/
def hostAddr (net : IPNet) (v : Int) : List Nat :=
  orBE (goMask net.ip net.mask) v.toNat

/-- Modelled from the spec: the current host's own offset within the subnet,
"the integer formed by the low hostBits bits of the host portion of the
configured base address".  Used to compare the spec's scan origin with the one
the code computes (`hostIPof`). -/
def specHostOffset (net : IPNet) : Nat :=
  beVal net.ip % 2 ^ hostBits net

/-- The error a seeder can hold: `fmt.Errorf("host address space too small: %v bits", hostBits)`. -/
inductive SeedErr where
  | addressSpaceTooSmall (bits : Nat)
deriving DecidableEq

/-! ## The linear-scan state machine (`scanSeeder.run` loop body) -/

/-- The loop-local state of `scanSeeder.run`: `up, down, offset`. -/
structure ScanState where
  up : Bool
  down : Bool
  offset : Int
deriving DecidableEq

/-- Initial loop state: `up, down, offset := true, true, 0`. -/
def scanInit : ScanState := ⟨true, true, 0⟩

/-- Two's-complement wrap of an integer to a 64-bit machine `int`, as Go
arithmetic silently does on overflow. -/
def wrap64 (x : Int) : Int := (x + 2 ^ 63) % 2 ^ 64 - 2 ^ 63

/-- Go `1 << uint(n)` evaluated on a 64-bit `int`: equal to `2^n` up to
`n = 62`, wrapping negative at `n = 63`, and 0 for shift counts of 64 or
more (Go defines over-wide left shifts as 0, which coincides with the
two's-complement truncation of `2^n`). -/
def goShl1 (n : Nat) : Int := wrap64 (2 ^ n)

/-- The scan loop's up-boundary `(1 << uint(hostBits)) - 1` as the machine
computes it (−1 once the shift wraps, for `hostBits ≥ 64`). -/
def scanBound (n : Nat) : Int := wrap64 (goShl1 n - 1)

/-- The probe loop's `rand.Intn` argument `1<<uint(hostBits) - 2` as the
machine computes it (−2 once the shift wraps). -/
def intnArg (n : Nat) : Int := wrap64 (goShl1 n - 2)

/-- One iteration of the `scanSeeder.run` loop for `hostBits = n` and scan
origin `h`: reset when both directions are exhausted, generate the candidate,
update the offset, disable a direction and skip on a boundary hit, otherwise
emit the candidate host offset.  The up-boundary is the machine value
`scanBound n`.  The remaining loop arithmetic is modeled exactly: the scan
origin is a sum of masked bytes (at most 16·255) and every reachable offset
has magnitude at most `max(origin, scanBound)+1`, so `offset`, its update and
`nextIP` never overflow a 64-bit int and exact `Int` is faithful for them. -/
def scanStep (n : Nat) (h : Int) (s : ScanState) : ScanState × Option Int :=
  let s1 := if s.up = false ∧ s.down = false then scanInit else s
  let next : Int := h + s1.offset
  let o1 : Int := -s1.offset
  let o2 : Int := if 0 ≤ o1 then o1 + 1 else o1
  if next ≤ 0 then (⟨s1.up, false, o2⟩, none)
  else if scanBound n ≤ next then (⟨false, s1.down, o2⟩, none)
  else (⟨s1.up, s1.down, o2⟩, some next)

/-- Run `fuel` iterations of the scan loop from state `s`, collecting the
emitted host offsets in order. -/
def scanGo (n : Nat) (h : Int) : ScanState → Nat → ScanState × List Int
  | s, 0 => (s, [])
  | s, f + 1 =>
    let p := scanStep n h s
    let q := scanGo n h p.1 f
    (q.1, p.2.toList ++ q.2)

/-- The addresses sent on the sink by `scanSeeder.run` during its first `fuel`
iterations (none at all when the host address space is too small).  The `phase`
pointer is passed to the background run but never read. -/
def scanEmitted (net : IPNet) (phase : Nat → Nat) (fuel : Nat) : List (List Nat) :=
  if hostBits net < 2 then []
  else ((scanGo (hostBits net) (hostIPof net) scanInit fuel).2).map (fun v => hostAddr net v)

/-- The scan loop driven by a consumer that accepts `k` addresses and then
calls `Close`: each `select` hands the address to the sink while the consumer
still wants one, and resolves to the quit channel afterwards.  Returns the
accepted host offsets, `none` when `fuel` iterations were not enough. -/
def scanLoop (n : Nat) (h : Int) : Nat → ScanState → Nat → Option (List Int)
  | 0, _, _ => none
  | f + 1, s, k =>
    let p := scanStep n h s
    match p.2 with
    | none => scanLoop n h f p.1 k
    | some v =>
      match k with
      | 0 => some []
      | k' + 1 => (scanLoop n h f p.1 k').map (fun l => v :: l)

/-- A full `Start` … accept `k` addresses … `Close` session against
`scanSeeder`: the addresses the consumer received and the error `Close`
returns.  The validation error set before the loop is delivered on the quit
reply channel; otherwise the loop exits by observing the quit request with
`err` still `nil`. -/
def scanSession (net : IPNet) (phase : Nat → Nat) (k fuel : Nat) :
    Option (List (List Nat) × Option SeedErr) :=
  if hostBits net < 2 then some ([], some (.addressSpaceTooSmall (hostBits net)))
  else
    (scanLoop (hostBits net) (hostIPof net) fuel scanInit k).map
      (fun l => (l.map (fun v => hostAddr net v), none))

/-! ## The random-probe loop (`probeSeeder.run`) -/

/-- Model of Go `math/rand.Intn`: panics (`none`) on a non-positive argument,
otherwise some value in `[0, m)` derived from the generator's raw output. -/
def randIntn (m : Int) (raw : Nat) : Option Int :=
  if m ≤ 0 then none else some ((raw : Int) % m)

/-- The probe loop emitting `k` host offsets, drawing
`rand.Intn(1<<hostBits - 2) + 1` each iteration; `none` models the `Intn`
panic on a non-positive argument. -/
def probeLoop (n : Nat) (rnd : Nat → Nat) : Nat → Nat → Option (List Int)
  | _, 0 => some []
  | i, k + 1 =>
    match randIntn (intnArg n) (rnd i) with
    | none => none
    | some d => (probeLoop n rnd (i + 1) k).map (fun l => (d + 1) :: l)

/-- A full session against `probeSeeder`, like `scanSession`: the consumer
accepts `k` addresses and then closes. -/
def probeSession (net : IPNet) (phase : Nat → Nat) (rnd : Nat → Nat) (k : Nat) :
    Option (List (List Nat) × Option SeedErr) :=
  if hostBits net < 2 then some ([], some (.addressSpaceTooSmall (hostBits net)))
  else
    (probeLoop (hostBits net) rnd 0 k).map
      (fun l => (l.map (fun v => hostAddr net v), none))

/-! ## Event traces for the shutdown protocol -/

/-- Observable events of a seeder's background run: an address sent on the
sink, the arrival of a quit request, and the delivery of the terminal outcome
on the reply channel. -/
inductive SeedEv where
  | emit (a : List Nat)
  | quitObs
  | deliver (e : Option SeedErr)
deriving DecidableEq

/-- The scan loop under an arbitrary consumer schedule: at the `select` of
iteration `t`, `sched t = true` means the quit request wins the race, `false`
means the sink receive wins.  Returns the events and whether the quit request
was observed within `fuel` iterations. -/
def scanTraceLoop (A : Int → List Nat) (n : Nat) (h : Int) (sched : Nat → Bool) :
    Nat → Nat → ScanState → List SeedEv × Bool
  | 0, _, _ => ([], false)
  | f + 1, t, s =>
    let p := scanStep n h s
    match p.2 with
    | none => scanTraceLoop A n h sched f (t + 1) p.1
    | some v =>
      if sched t then ([SeedEv.quitObs], true)
      else
        let q := scanTraceLoop A n h sched f (t + 1) p.1
        (SeedEv.emit (A v) :: q.1, q.2)

/-- The full event trace of `scanSeeder.run` under a consumer schedule.
On a validation error the loop is skipped, the run waits for the quit
request and delivers the error; after a quit observed inside the loop the
run delivers `nil`.  If the schedule never fires within `fuel`, the trace is
the partial trace of a still running generator. -/
def scanTrace (net : IPNet) (phase : Nat → Nat) (sched : Nat → Bool) (fuel : Nat) :
    List SeedEv :=
  if hostBits net < 2 then
    [SeedEv.quitObs, SeedEv.deliver (some (.addressSpaceTooSmall (hostBits net)))]
  else
    let p := scanTraceLoop (fun v => hostAddr net v) (hostBits net) (hostIPof net)
      sched fuel 0 scanInit
    p.1 ++ if p.2 then [SeedEv.deliver none] else []

/-- The probe loop under a consumer schedule, as `scanTraceLoop`. -/
def probeTraceLoop (A : Int → List Nat) (n : Nat) (rnd : Nat → Nat) (sched : Nat → Bool) :
    Nat → Nat → List SeedEv × Bool
  | 0, _ => ([], false)
  | f + 1, t =>
    match randIntn (intnArg n) (rnd t) with
    | none => ([], false)
    | some d =>
      if sched t then ([SeedEv.quitObs], true)
      else
        let q := probeTraceLoop A n rnd sched f (t + 1)
        (SeedEv.emit (A (d + 1)) :: q.1, q.2)

/-- The full event trace of `probeSeeder.run` under a consumer schedule. -/
def probeTrace (net : IPNet) (phase : Nat → Nat) (rnd : Nat → Nat) (sched : Nat → Bool)
    (fuel : Nat) : List SeedEv :=
  if hostBits net < 2 then
    [SeedEv.quitObs, SeedEv.deliver (some (.addressSpaceTooSmall (hostBits net)))]
  else
    let p := probeTraceLoop (fun v => hostAddr net v) (hostBits net) rnd sched fuel 0
    p.1 ++ if p.2 then [SeedEv.deliver none] else []

/-! ## Constructors and `Start` -/

/-- The data of a `scanSeeder` (the quit channel and logger carry no state
relevant to the embedding). -/
structure ScanSeeder where
  ipnet : IPNet

/-- The data of a `probeSeeder`. -/
structure ProbeSeeder where
  ipnet : IPNet

/-- `newScanSeeder`: builds the seeder and returns a `nil` error,
unconditionally. -/
def newScanSeeder (net : IPNet) : ScanSeeder × Option SeedErr :=
  (⟨net⟩, none)

/-- `newProbeSeeder`: builds the seeder and returns a `nil` error,
unconditionally. -/
def newProbeSeeder (net : IPNet) : ProbeSeeder × Option SeedErr :=
  (⟨net⟩, none)

/-- `scanSeeder.Start`: spawns the background run (modelled separately by
`scanSession`/`scanTrace`) and returns `nil`. -/
def scanStart (s : ScanSeeder) (phase : Nat → Nat) : Option SeedErr := none

/-- `probeSeeder.Start`: spawns the background run and returns `nil`. -/
def probeStart (s : ProbeSeeder) (phase : Nat → Nat) : Option SeedErr := none

/-! ## Analysis definitions for the zig-zag schedule -/

/-- The offset used at iteration `t` of an uninterrupted scan cycle:
`0, +1, −1, +2, −2, …`. -/
def zig (t : Nat) : Int :=
  if t % 2 = 1 then ((t + 1) / 2 : Nat) else -((t / 2 : Nat) : Int)

/-- The candidate host offset at iteration `t` of a cycle started at origin `h`. -/
def cand (h : Int) (t : Nat) : Int := h + zig t

/-- The host offsets emitted during the first `t` iterations of a cycle. -/
def emitsUpTo (n : Nat) (h : Int) (t : Nat) : List Int :=
  (List.range t).filterMap
    (fun s => if 0 < cand h s ∧ cand h s < (2 : Int) ^ n - 1 then some (cand h s) else none)

/-- The first iteration whose candidate hits the network-address boundary. -/
def fd (h : Int) : Nat := if h ≤ 0 then 0 else 2 * h.toNat

/-- The first iteration whose candidate hits the broadcast boundary. -/
def fu (n : Nat) (h : Int) : Nat :=
  if (2 : Int) ^ n - 1 ≤ h then 0 else 2 * ((2 : Int) ^ n - 1 - h).toNat - 1

/-- Number of iterations of one full scan cycle (after which both directions
are exhausted and the state resets). -/
def cycleLen (n : Nat) (h : Int) : Nat := max (fd h) (fu n h) + 1

/-- The iteration of a cycle whose zig-zag offset is `o`. -/
def stepOf (o : Int) : Nat := if 0 < o then 2 * o.toNat - 1 else 2 * (-o).toNat

/-! ## Concrete subnets used as witnesses -/

/-- `192.168.0.100/30` (scenario A of the spec). -/
def net30 : IPNet := ⟨[192, 168, 0, 100], [255, 255, 255, 252]⟩

/-- `192.168.0.100/31` (scenario B of the spec): one host bit. -/
def net31 : IPNet := ⟨[192, 168, 0, 100], [255, 255, 255, 254]⟩

/-- `192.168.1.100/20`: twelve host bits with a nonzero second host byte. -/
def net20 : IPNet := ⟨[192, 168, 1, 100], [255, 255, 240, 0]⟩

/-- A malformed mask/address pairing: 4-byte address with a 16-byte mask
(mask bit length 128 exceeds address bit length 32). -/
def netBad : IPNet :=
  ⟨[192, 168, 0, 100],
   [255, 255, 255, 255, 255, 255, 255, 255, 255, 255, 255, 255, 255, 255, 255, 0]⟩

/-- The IPv6 subnet `fe80::1/64`: a well-formed subnet with 64 host bits, on
which the Go shift `1 << uint(hostBits)` wraps to 0 on a 64-bit int. -/
def net64 : IPNet :=
  ⟨[254, 128, 0, 0, 0, 0, 0, 0, 0, 0, 0, 0, 0, 0, 0, 1],
   [255, 255, 255, 255, 255, 255, 255, 255, 0, 0, 0, 0, 0, 0, 0, 0]⟩

/-- A constant phase cell. -/
def phase0 : Nat → Nat := fun _ => 0

/-! ## Lemmas: the zig-zag offset sequence -/

theorem zig_zero : zig 0 = 0 := rfl

theorem zig_odd (k : Nat) : zig (2 * k + 1) = (k : Int) + 1 := by
  simp only [zig]
  rw [if_pos (by omega)]
  omega

theorem zig_even (k : Nat) : zig (2 * k + 2) = -((k : Int) + 1) := by
  simp only [zig]
  rw [if_neg (by omega)]
  omega

theorem zig_inj {t1 t2 : Nat} (h : zig t1 = zig t2) : t1 = t2 := by
  simp only [zig] at h
  split_ifs at h <;> omega

theorem zig_update (t : Nat) :
    (if 0 ≤ -zig t then -zig t + 1 else -zig t) = zig (t + 1) := by
  simp only [zig]
  split_ifs <;> omega

theorem cand_fd (h : Int) : cand h (fd h) ≤ 0 := by
  simp only [cand, fd, zig]
  split_ifs <;> omega

theorem cand_fd_min (h : Int) (t : Nat) (ht : t < fd h) : 0 < cand h t := by
  simp only [fd] at ht
  simp only [cand, zig]
  split_ifs at ht ⊢ <;> omega

theorem cand_fu (n : Nat) (h : Int) : (2 : Int) ^ n - 1 ≤ cand h (fu n h) := by
  have hN : 0 < (2 : Int) ^ n := by positivity
  simp only [cand, fu, zig]
  generalize (2 : Int) ^ n = N at *
  split_ifs <;> omega

theorem cand_fu_min (n : Nat) (h : Int) (t : Nat) (ht : t < fu n h) :
    cand h t < (2 : Int) ^ n - 1 := by
  have hN : 0 < (2 : Int) ^ n := by positivity
  simp only [fu] at ht
  simp only [cand, zig]
  generalize (2 : Int) ^ n = N at *
  split_ifs at ht ⊢ <;> omega

theorem emitsUpTo_succ (n : Nat) (h : Int) (t : Nat) :
    emitsUpTo n h (t + 1) =
      emitsUpTo n h t ++
        (if 0 < cand h t ∧ cand h t < (2 : Int) ^ n - 1 then [cand h t] else []) := by
  simp only [emitsUpTo, List.range_succ, List.filterMap_append]
  congr 1
  simp only [List.filterMap_cons, List.filterMap_nil]
  split_ifs <;> rfl

/-! ## Lemmas: the machine-int shift boundaries -/

theorem wrap64_eq_self (x : Int) (h1 : -(2 ^ 63) ≤ x) (h2 : x < 2 ^ 63) :
    wrap64 x = x := by
  have e63 : (2 : Int) ^ 63 = 9223372036854775808 := by norm_num
  have e64 : (2 : Int) ^ 64 = 18446744073709551616 := by norm_num
  have hmod : (x + 2 ^ 63) % 2 ^ 64 = x + 2 ^ 63 :=
    Int.emod_eq_of_lt (by omega) (by omega)
  simp only [wrap64, hmod]
  omega

theorem goShl1_small (n : Nat) (hn : n ≤ 62) : goShl1 n = 2 ^ n := by
  apply wrap64_eq_self
  · have : (0 : Int) ≤ 2 ^ n := by positivity
    have : (0 : Int) ≤ 2 ^ 63 := by positivity
    omega
  · calc (2 : Int) ^ n ≤ 2 ^ 62 := pow_le_pow_right₀ (by norm_num) hn
    _ < 2 ^ 63 := by norm_num

theorem goShl1_wrap (n : Nat) (hn : 64 ≤ n) : goShl1 n = 0 := by
  simp only [goShl1, wrap64]
  obtain ⟨k, rfl⟩ : ∃ k : Nat, n = 64 + k := ⟨n - 64, by omega⟩
  rw [pow_add]
  rw [add_comm, Int.add_mul_emod_self_left,
    Int.emod_eq_of_lt (by positivity) (by norm_num)]
  omega

theorem scanBound_small (n : Nat) (hn : n ≤ 63) : scanBound n = 2 ^ n - 1 := by
  rcases (by omega : n ≤ 62 ∨ n = 63) with h | rfl
  · simp only [scanBound, goShl1_small n h]
    apply wrap64_eq_self
    · have : (0 : Int) ≤ 2 ^ n := by positivity
      have : (0 : Int) ≤ 2 ^ 63 := by positivity
      omega
    · have : (2 : Int) ^ n ≤ 2 ^ 62 := pow_le_pow_right₀ (by norm_num) h
      have : (2 : Int) ^ 62 < 2 ^ 63 := by norm_num
      omega
  · decide

theorem scanBound_wrap (n : Nat) (hn : 64 ≤ n) : scanBound n = -1 := by
  simp only [scanBound, goShl1_wrap n hn]
  decide

theorem intnArg_small (n : Nat) (hn : n ≤ 63) : intnArg n = 2 ^ n - 2 := by
  rcases (by omega : n ≤ 62 ∨ n = 63) with h | rfl
  · simp only [intnArg, goShl1_small n h]
    apply wrap64_eq_self
    · have : (0 : Int) ≤ 2 ^ n := by positivity
      have : (0 : Int) ≤ 2 ^ 63 := by positivity
      omega
    · have : (2 : Int) ^ n ≤ 2 ^ 62 := pow_le_pow_right₀ (by norm_num) h
      have : (2 : Int) ^ 62 < 2 ^ 63 := by norm_num
      omega
  · decide

theorem intnArg_wrap (n : Nat) (hn : 64 ≤ n) : intnArg n = -2 := by
  simp only [intnArg, goShl1_wrap n hn]
  decide

theorem scanBound_le (n : Nat) : scanBound n ≤ 2 ^ n - 1 := by
  rcases le_or_lt n 63 with h | h
  · rw [scanBound_small n h]
  · rw [scanBound_wrap n (by omega)]
    have : (0 : Int) < 2 ^ n := by positivity
    omega

theorem intnArg_le (n : Nat) : intnArg n ≤ 2 ^ n - 2 := by
  rcases le_or_lt n 63 with h | h
  · rw [intnArg_small n h]
  · rw [intnArg_wrap n (by omega)]
    have : (0 : Int) < 2 ^ n := by positivity
    omega

/-! ## Lemmas: the scan machine -/

theorem scanGo_add (n : Nat) (h : Int) (a : Nat) :
    ∀ (s : ScanState) (b : Nat),
      scanGo n h s (a + b) =
        ((scanGo n h (scanGo n h s a).1 b).1,
          (scanGo n h s a).2 ++ (scanGo n h (scanGo n h s a).1 b).2) := by
  induction a with
  | zero => intro s b; simp [scanGo]
  | succ a ih =>
    intro s b
    have hab : a + 1 + b = (a + b) + 1 := by omega
    rw [hab]
    simp only [scanGo]
    rw [ih (scanStep n h s).1 b]
    simp [List.append_assoc]

theorem scanGo_succ_back (n : Nat) (h : Int) (s : ScanState) (t : Nat) :
    scanGo n h s (t + 1) =
      ((scanStep n h (scanGo n h s t).1).1,
        (scanGo n h s t).2 ++ ((scanStep n h (scanGo n h s t).1).2).toList) := by
  rw [scanGo_add n h t s 1]
  simp [scanGo]

theorem scanStep_mk (n : Nat) (h : Int) (u d : Bool) (o : Int)
    (hn : ¬(u = false ∧ d = false)) :
    scanStep n h ⟨u, d, o⟩ =
      (⟨if scanBound n ≤ h + o ∧ ¬(h + o ≤ 0) then false else u,
        if h + o ≤ 0 then false else d,
        if 0 ≤ -o then -o + 1 else -o⟩,
       if 0 < h + o ∧ h + o < scanBound n then some (h + o) else none) := by
  simp only [scanStep]
  split_ifs <;> simp_all <;> omega

theorem scan_inv (n : Nat) (h : Int) (h2 : 2 ≤ n) (hn63 : n ≤ 63) :
    ∀ t, t ≤ cycleLen n h →
      scanGo n h scanInit t =
        (⟨decide (t ≤ fu n h), decide (t ≤ fd h), zig t⟩, emitsUpTo n h t) := by
  intro t
  induction t with
  | zero =>
    intro _
    have he : emitsUpTo n h 0 = [] := rfl
    simp [scanGo, scanInit, he, zig]
  | succ t ih =>
    intro hle
    have hmax : t ≤ max (fd h) (fu n h) := by simp only [cycleLen] at hle; omega
    have hinv := ih (by simp only [cycleLen] at hle ⊢; omega)
    have hN3 : (3 : Int) ≤ (2 : Int) ^ n := by
      calc (3 : Int) ≤ 2 ^ 2 := by norm_num
      _ ≤ 2 ^ n := by apply pow_le_pow_right₀ <;> omega
    have hn : ¬(decide (t ≤ fu n h) = false ∧ decide (t ≤ fd h) = false) := by
      intro hcon
      rcases hcon with ⟨hx, hy⟩
      rw [decide_eq_false_iff_not] at hx hy
      omega
    rw [scanGo_succ_back, hinv]
    rw [scanStep_mk n h _ _ _ hn]
    rw [scanBound_small n hn63]
    rw [emitsUpTo_succ]
    rw [Prod.mk.injEq]
    constructor
    · rw [ScanState.mk.injEq]
      refine ⟨?_, ?_, zig_update t⟩
      · split_ifs with hcnd
        · rcases hcnd with ⟨hge, hpos⟩
          have hfule : fu n h ≤ t := by
            by_contra hcon
            have := cand_fu_min n h t (by omega)
            simp only [cand] at this
            omega
          symm
          rw [decide_eq_false_iff_not]
          omega
        · have htne : t ≠ fu n h := by
            intro he
            have hcf := cand_fu n h
            rw [← he] at hcf
            simp only [cand] at hcf
            exact hcnd ⟨hcf, by omega⟩
          simp only [decide_eq_decide]
          omega
      · split_ifs with hcnd
        · have hfdle : fd h ≤ t := by
            by_contra hcon
            have := cand_fd_min h t (by omega)
            simp only [cand] at this
            omega
          symm
          rw [decide_eq_false_iff_not]
          omega
        · have htne : t ≠ fd h := by
            intro he
            have hcf := cand_fd h
            rw [← he] at hcf
            simp only [cand] at hcf
            exact hcnd hcf
          simp only [decide_eq_decide]
          omega
    · simp only [cand]
      congr 1
      split_ifs <;> rfl

theorem scanStep_both_false (n : Nat) (h : Int) (s : ScanState) (hu : s.up = false)
    (hd : s.down = false) : scanStep n h s = scanStep n h scanInit := by
  obtain ⟨u, d, o⟩ := s
  simp only at hu hd
  subst hu
  subst hd
  simp [scanStep, scanInit]

theorem scanGo_reset (n : Nat) (h : Int) (s : ScanState) (hu : s.up = false)
    (hd : s.down = false) : ∀ f, 1 ≤ f → scanGo n h s f = scanGo n h scanInit f := by
  intro f hf
  match f with
  | g + 1 =>
    simp only [scanGo]
    rw [scanStep_both_false n h s hu hd]

theorem cycleLen_pos (n : Nat) (h : Int) : 1 ≤ cycleLen n h := by
  simp [cycleLen]

theorem scan_cycle_state (n : Nat) (h : Int) (h2 : 2 ≤ n) (hn63 : n ≤ 63) :
    (scanGo n h scanInit (cycleLen n h)).1 = ⟨false, false, zig (cycleLen n h)⟩ := by
  rw [scan_inv n h h2 hn63 _ le_rfl]
  have h1 : decide (cycleLen n h ≤ fu n h) = false := by
    rw [decide_eq_false_iff_not]
    simp only [cycleLen]
    omega
  have h2' : decide (cycleLen n h ≤ fd h) = false := by
    rw [decide_eq_false_iff_not]
    simp only [cycleLen]
    omega
  simp [h1, h2']

theorem scan_cycle_emits (n : Nat) (h : Int) (h2 : 2 ≤ n) (hn63 : n ≤ 63) :
    (scanGo n h scanInit (cycleLen n h)).2 = emitsUpTo n h (cycleLen n h) := by
  rw [scan_inv n h h2 hn63 _ le_rfl]

theorem scan_cycles (n : Nat) (h : Int) (h2 : 2 ≤ n) (hn63 : n ≤ 63) :
    ∀ j, (scanGo n h scanInit ((j + 1) * cycleLen n h)).1 =
        (⟨false, false, zig (cycleLen n h)⟩ : ScanState) ∧
      (scanGo n h scanInit ((j + 1) * cycleLen n h)).2 =
        (scanGo n h scanInit (j * cycleLen n h)).2 ++ emitsUpTo n h (cycleLen n h) := by
  intro j
  induction j with
  | zero =>
    constructor
    · simpa using scan_cycle_state n h h2 hn63
    · simpa using scan_cycle_emits n h h2 hn63
  | succ j ih =>
    have harith : (j + 1 + 1) * cycleLen n h = (j + 1) * cycleLen n h + cycleLen n h := by ring
    rw [harith, scanGo_add]
    rw [ih.1, scanGo_reset n h _ rfl rfl _ (cycleLen_pos n h)]
    constructor
    · simp [scan_cycle_state n h h2 hn63]
    · rw [scan_cycle_emits n h h2 hn63]

theorem scan_two_cycles_emits (n : Nat) (h : Int) (h2 : 2 ≤ n) (hn63 : n ≤ 63) :
    (scanGo n h scanInit (2 * cycleLen n h)).2 =
      emitsUpTo n h (cycleLen n h) ++ emitsUpTo n h (cycleLen n h) := by
  have h1 := (scan_cycles n h h2 hn63 1).2
  have h0 : (1 : Nat) + 1 = 2 := rfl
  rw [h0] at h1
  rw [h1]
  have : (1 : Nat) * cycleLen n h = cycleLen n h := by ring
  rw [this, scan_cycle_emits n h h2 hn63]

theorem scan_cycles_length (n : Nat) (h : Int) (h2 : 2 ≤ n) (hn63 : n ≤ 63) :
    ∀ j, (scanGo n h scanInit (j * cycleLen n h)).2.length =
      j * (emitsUpTo n h (cycleLen n h)).length := by
  intro j
  induction j with
  | zero => simp [scanGo]
  | succ j ih =>
    rw [(scan_cycles n h h2 hn63 j).2, List.length_append, ih]
    ring

theorem scanGo_mono (n : Nat) (h : Int) (s : ScanState) (f1 f2 : Nat) (hle : f1 ≤ f2) :
    ∃ l, (scanGo n h s f2).2 = (scanGo n h s f1).2 ++ l := by
  obtain ⟨b, rfl⟩ : ∃ b, f2 = f1 + b := ⟨f2 - f1, by omega⟩
  rw [scanGo_add]
  exact ⟨_, rfl⟩

/-! ## Lemmas: one cycle emits each valid host offset exactly once -/

theorem emits_nodup (n : Nat) (h : Int) (t : Nat) : (emitsUpTo n h t).Nodup := by
  apply List.Nodup.filterMap ?_ (List.nodup_range t)
  intro a a' b hb hb'
  split_ifs at hb with hc
  · split_ifs at hb' with hc'
    · rw [Option.mem_some_iff] at hb hb'
      have : cand h a = cand h a' := by rw [hb, hb']
      exact zig_inj ((add_right_inj h).mp this)
    · exact absurd hb' (by simp)
  · exact absurd hb (by simp)

theorem zig_stepOf (o : Int) : zig (stepOf o) = o := by
  simp only [zig, stepOf]
  split_ifs <;> omega

theorem stepOf_lt (n : Nat) (h : Int) (h2 : 2 ≤ n) (v : Int) (hv0 : 0 < v)
    (hvN : v < (2 : Int) ^ n - 1) : stepOf (v - h) < cycleLen n h := by
  have hN3 : (3 : Int) ≤ (2 : Int) ^ n := by
    calc (3 : Int) ≤ 2 ^ 2 := by norm_num
    _ ≤ 2 ^ n := by apply pow_le_pow_right₀ <;> omega
  simp only [stepOf, cycleLen, fd, fu]
  generalize (2 : Int) ^ n = N at *
  split_ifs <;> omega

theorem mem_emits_iff (n : Nat) (h : Int) (h2 : 2 ≤ n) (v : Int) :
    v ∈ emitsUpTo n h (cycleLen n h) ↔ 0 < v ∧ v < (2 : Int) ^ n - 1 := by
  constructor
  · intro hv
    simp only [emitsUpTo, List.mem_filterMap] at hv
    obtain ⟨s, hs, hfs⟩ := hv
    split_ifs at hfs with hc
    cases hfs
    exact hc
  · rintro ⟨hv0, hvN⟩
    simp only [emitsUpTo, List.mem_filterMap]
    refine ⟨stepOf (v - h), List.mem_range.mpr (stepOf_lt n h h2 v hv0 hvN), ?_⟩
    have hcv : cand h (stepOf (v - h)) = v := by
      simp only [cand, zig_stepOf]
      ring
    rw [hcv, if_pos ⟨hv0, hvN⟩]

theorem two_pow_cast (n : Nat) : ((2 ^ n : Nat) : Int) = (2 : Int) ^ n := by
  push_cast
  ring

theorem two_pow_ge4 (n : Nat) (h2 : 2 ≤ n) : 4 ≤ 2 ^ n := by
  calc (4 : Nat) = 2 ^ 2 := by norm_num
  _ ≤ 2 ^ n := Nat.pow_le_pow_right (by norm_num) h2

theorem emits_toFinset (n : Nat) (h : Int) (h2 : 2 ≤ n) :
    (emitsUpTo n h (cycleLen n h)).toFinset = Finset.Ico (1 : Int) ((2 : Int) ^ n - 1) := by
  ext v
  rw [List.mem_toFinset, mem_emits_iff n h h2, Finset.mem_Ico]
  omega

theorem emits_length (n : Nat) (h : Int) (h2 : 2 ≤ n) :
    (emitsUpTo n h (cycleLen n h)).length = 2 ^ n - 2 := by
  have hcard := List.toFinset_card_of_nodup (emits_nodup n h (cycleLen n h))
  rw [emits_toFinset n h h2, Int.card_Ico] at hcard
  have hc := two_pow_cast n
  have h4 := two_pow_ge4 n h2
  omega

/-! ## Lemmas: byte arithmetic of the emitted addresses -/

theorem orLE_zero : ∀ l : List Nat, orLE l 0 = l := by
  intro l
  induction l with
  | nil => rfl
  | cons b t ih => simp [orLE, ih]

theorem leVal_orLE : ∀ (l : List Nat) (hb v : Nat), (∀ b ∈ l, b < 256) → v < 2 ^ hb →
    hb ≤ 8 * l.length → leVal l % 2 ^ hb = 0 → leVal (orLE l v) = leVal l + v := by
  intro l
  induction l with
  | nil =>
    intro hb v _ hv hlen _
    simp only [List.length_nil, Nat.mul_zero, Nat.le_zero] at hlen
    subst hlen
    simp only [pow_zero, Nat.lt_one_iff] at hv
    subst hv
    rfl
  | cons b t ih =>
    intro hb v hbytes hv hlen hmod
    have hblt : b < 256 := hbytes b (by simp)
    by_cases hcase : 8 ≤ hb
    · have h28 : (256 : Nat) = 2 ^ 8 := by norm_num
      have hsplit : (2 : Nat) ^ hb = 2 ^ 8 * 2 ^ (hb - 8) := by
        rw [← pow_add]
        congr 1
        omega
      have hdvd : 2 ^ hb ∣ b + 256 * leVal t := Nat.dvd_of_mod_eq_zero hmod
      have hdvd8 : (256 : Nat) ∣ b + 256 * leVal t := by
        rw [h28]
        exact dvd_trans ⟨2 ^ (hb - 8), hsplit⟩ hdvd
      have hb0 : b = 0 := by
        rcases hdvd8 with ⟨c, hc⟩
        omega
      have hmodt : leVal t % 2 ^ (hb - 8) = 0 := by
        apply Nat.mod_eq_zero_of_dvd
        have hdvd' : 2 ^ 8 * 2 ^ (hb - 8) ∣ 2 ^ 8 * leVal t := by
          rw [← hsplit]
          have : b + 256 * leVal t = 2 ^ 8 * leVal t := by rw [← h28]; omega
          rw [← this]
          exact hdvd
        exact (mul_dvd_mul_iff_left (by positivity : (2:Nat) ^ 8 ≠ 0)).mp hdvd'
      have hvdiv : v / 256 < 2 ^ (hb - 8) := by
        have h2 : v < 2 ^ 8 * 2 ^ (hb - 8) := by rw [← hsplit]; exact hv
        omega
      have hrec := ih (hb - 8) (v / 256) (fun x hx => hbytes x (by simp [hx])) hvdiv
        (by simp only [List.length_cons] at hlen; omega) hmodt
      simp only [orLE, leVal, hb0, Nat.zero_or, hrec]
      omega
    · have hv256 : v < 256 := by
        have : (2 : Nat) ^ hb ≤ 2 ^ 8 := Nat.pow_le_pow_right (by norm_num) (by omega)
        omega
      have hdvdb : (2 : Nat) ^ hb ∣ 256 := by
        have h28 : (256 : Nat) = 2 ^ 8 := by norm_num
        rw [h28]
        exact pow_dvd_pow 2 (by omega)
      have hmodb : b % 2 ^ hb = 0 := by
        have hdvd : 2 ^ hb ∣ b + 256 * leVal t := Nat.dvd_of_mod_eq_zero hmod
        have hdvd2 : 2 ^ hb ∣ 256 * leVal t := Dvd.dvd.mul_right hdvdb _
        have : (2 : Nat) ^ hb ∣ b := (Nat.dvd_add_right hdvd2).mp (by rwa [Nat.add_comm] at hdvd)
        exact Nat.mod_eq_zero_of_dvd this
      obtain ⟨q, hq⟩ : ∃ q, b = 2 ^ hb * q :=
        ⟨b / 2 ^ hb, (Nat.mul_div_cancel' (Nat.dvd_of_mod_eq_zero hmodb)).symm⟩
      have hor : b ||| v = b + v := by
        rw [hq]
        exact (Nat.mul_add_lt_is_or hv q).symm
      have hvd : v / 256 = 0 := by omega
      have hvm : v % 256 = v := by omega
      simp only [orLE, leVal, hvd, orLE_zero, hvm, hor]
      omega

theorem leVal_all_zero : ∀ l : List Nat, (∀ b ∈ l, b = 0) → leVal l = 0 := by
  intro l
  induction l with
  | nil => intro _; rfl
  | cons b t ih =>
    intro hz
    have hb := hz b (by simp)
    have ht := ih (fun x hx => hz x (by simp [hx]))
    simp [leVal, hb, ht]

theorem beVal_all_zero (l : List Nat) (hz : ∀ b ∈ l, b = 0) : beVal l = 0 :=
  leVal_all_zero l.reverse (fun x hx => hz x (List.mem_reverse.mp hx))

theorem leVal_append_single (l : List Nat) (x : Nat) :
    leVal (l ++ [x]) = leVal l + x * 256 ^ l.length := by
  induction l with
  | nil => simp [leVal]
  | cons b t ih =>
    simp only [List.cons_append, leVal, List.append_eq, List.length_cons] at ih ⊢
    rw [ih]
    ring

theorem beVal_cons (b : Nat) (t : List Nat) :
    beVal (b :: t) = b * 256 ^ t.length + beVal t := by
  simp only [beVal, List.reverse_cons, leVal_append_single, List.length_reverse]
  ring

theorem highOnesAux_spec : ∀ (f v : Nat), v < 256 →
    (highOnesAux f v).1 ≤ f ∧ (highOnesAux f v).2 = v * 2 ^ (highOnesAux f v).1 % 256 := by
  intro f
  induction f with
  | zero =>
    intro v hv
    simp [highOnesAux]
    omega
  | succ f ih =>
    intro v hv
    by_cases hbit : v &&& 128 ≠ 0
    · have hrec := ih ((v * 2) % 256) (Nat.mod_lt _ (by norm_num))
      simp only [highOnesAux, if_pos hbit]
      refine ⟨by omega, ?_⟩
      rw [hrec.2, Nat.mod_mul_mod]
      congr 1
      ring
    · simp only [highOnesAux, if_neg hbit]
      simp
      omega

theorem simpleMaskLength_le : ∀ (mask : List Nat), (∀ b ∈ mask, b < 256) →
    ∀ n', simpleMaskLength mask = some n' → n' ≤ 8 * mask.length := by
  intro mask
  induction mask with
  | nil =>
    intro _ n' hn
    simp only [simpleMaskLength] at hn
    cases hn
    simp
  | cons v rest ih =>
    intro hbytes n' hn
    have hvlt : v < 256 := hbytes v (by simp)
    simp only [simpleMaskLength] at hn
    split_ifs at hn with hff hnz hall
    · rw [Option.map_eq_some'] at hn
      obtain ⟨m, hm, rfl⟩ := hn
      have := ih (fun x hx => hbytes x (by simp [hx])) m hm
      simp only [List.length_cons]
      omega
    · cases hn
      have := (highOnesAux_spec 8 v hvlt).1
      simp only [List.length_cons]
      omega

theorem and_mod_two_pow_zero {v r : Nat} (hv : v % 2 ^ r = 0) (a : Nat) :
    (a &&& v) % 2 ^ r = 0 := by
  apply Nat.eq_of_testBit_eq
  intro j
  rw [Nat.testBit_mod_two_pow, Nat.testBit_and, Nat.zero_testBit]
  by_cases hj : j < r
  · have hvj : v.testBit j = false := by
      have hb := Nat.testBit_mod_two_pow v r j
      rw [hv, Nat.zero_testBit] at hb
      simp only [hj] at hb
      simpa using hb.symm
    simp [hvj]
  · simp [hj]

theorem zip_and_all_zero : ∀ (ip rest : List Nat), (∀ b ∈ rest, b = 0) →
    ∀ x ∈ List.zipWith (fun a b => a &&& b) ip rest, x = 0 := by
  intro ip
  induction ip with
  | nil => intro rest _ x hx; simp at hx
  | cons a ip' ih =>
    intro rest hz x hx
    cases rest with
    | nil => simp at hx
    | cons r rest' =>
      simp only [List.zipWith_cons_cons, List.mem_cons] at hx
      rcases hx with hx | hx
      · have hr : r = 0 := hz r (by simp)
        rw [hx, hr, Nat.and_zero]
      · exact ih rest' (fun b hb => hz b (by simp [hb])) x hx

theorem zip_and_lt : ∀ (ip mask : List Nat), (∀ b ∈ ip, b < 256) →
    ∀ x ∈ List.zipWith (fun a b => a &&& b) ip mask, x < 256 := by
  intro ip
  induction ip with
  | nil => intro mask _ x hx; simp at hx
  | cons a ip' ih =>
    intro mask hip x hx
    cases mask with
    | nil => simp at hx
    | cons m mask' =>
      simp only [List.zipWith_cons_cons, List.mem_cons] at hx
      rcases hx with hx | hx
      · have : a &&& m ≤ a := Nat.and_le_left
        have ha : a < 256 := hip a (by simp)
        omega
      · exact ih mask' (fun b hb => hip b (by simp [hb])) x hx

theorem maskedVal_zero : ∀ (mask ip : List Nat), ip.length = mask.length →
    (∀ b ∈ ip, b < 256) → (∀ b ∈ mask, b < 256) →
    ∀ ones, simpleMaskLength mask = some ones →
    beVal (List.zipWith (fun a b => a &&& b) ip mask) % 2 ^ (8 * mask.length - ones) = 0 := by
  intro mask
  induction mask with
  | nil =>
    intro ip hlen _ _ ones hones
    simp only [simpleMaskLength] at hones
    cases hones
    simp only [List.length_nil] at hlen
    rw [List.length_eq_zero.mp hlen]
    rfl
  | cons v rest ih =>
    intro ip hlen hip hmask ones hones
    cases ip with
    | nil => simp at hlen
    | cons a ip' =>
      simp only [List.length_cons] at hlen
      have hlen' : ip'.length = rest.length := by omega
      have hvlt : v < 256 := hmask v (by simp)
      have hip' : ∀ b ∈ ip', b < 256 := fun b hb => hip b (by simp [hb])
      have hmask' : ∀ b ∈ rest, b < 256 := fun b hb => hmask b (by simp [hb])
      simp only [simpleMaskLength] at hones
      split_ifs at hones with hff hnz hall
      · rw [Option.map_eq_some'] at hones
        obtain ⟨m, hm, rfl⟩ := hones
        have hmle := simpleMaskLength_le rest hmask' m hm
        have hexp : 8 * (v :: rest).length - (m + 8) = 8 * rest.length - m := by
          simp only [List.length_cons]
          omega
        rw [hexp]
        rw [List.zipWith_cons_cons, beVal_cons]
        have hlenz : (List.zipWith (fun a b => a &&& b) ip' rest).length = rest.length := by
          rw [List.length_zipWith]
          omega
        have hterm1 : (a &&& v) * 256 ^ (List.zipWith (fun a b => a &&& b) ip' rest).length
            % 2 ^ (8 * rest.length - m) = 0 := by
          apply Nat.mod_eq_zero_of_dvd
          rw [hlenz]
          have h256 : (256 : Nat) ^ rest.length = 2 ^ (8 * rest.length) := by
            rw [show (256 : Nat) = 2 ^ 8 by norm_num, ← pow_mul]
          rw [h256]
          exact Dvd.dvd.mul_left (pow_dvd_pow 2 (by omega)) _
        have hterm2 := ih ip' hlen' hip' hmask' m hm
        rw [Nat.add_mod, hterm1, hterm2]
        simp
      · cases hones
        have hspec := highOnesAux_spec 8 v hvlt
        push_neg at hnz
        have hple : (highOnesAux 8 v).1 ≤ 8 := hspec.1
        have hvmod : v % 2 ^ (8 - (highOnesAux 8 v).1) = 0 := by
          have hz : v * 2 ^ (highOnesAux 8 v).1 % 256 = 0 := by rw [← hspec.2]; exact hnz
          have hdvd : (2 : Nat) ^ (8 - (highOnesAux 8 v).1) * 2 ^ (highOnesAux 8 v).1 ∣
              v * 2 ^ (highOnesAux 8 v).1 := by
            rw [← pow_add, show 8 - (highOnesAux 8 v).1 + (highOnesAux 8 v).1 = 8 by omega]
            rw [show (2 : Nat) ^ 8 = 256 by norm_num]
            exact Nat.dvd_of_mod_eq_zero hz
          have := (mul_dvd_mul_iff_right (by positivity : (2:Nat) ^ (highOnesAux 8 v).1 ≠ 0)).mp hdvd
          exact Nat.mod_eq_zero_of_dvd this
        have handv : (a &&& v) % 2 ^ (8 - (highOnesAux 8 v).1) = 0 :=
          and_mod_two_pow_zero hvmod a
        rw [List.zipWith_cons_cons, beVal_cons]
        have hz2 : beVal (List.zipWith (fun a b => a &&& b) ip' rest) = 0 := by
          apply beVal_all_zero
          intro x hx
          apply zip_and_all_zero ip' rest ?_ x hx
          intro b hb
          have := List.all_eq_true.mp hall b hb
          simpa using this
        rw [hz2, Nat.add_zero]
        apply Nat.mod_eq_zero_of_dvd
        obtain ⟨q, hq⟩ : ∃ q, a &&& v = 2 ^ (8 - (highOnesAux 8 v).1) * q :=
          ⟨(a &&& v) / 2 ^ (8 - (highOnesAux 8 v).1),
            (Nat.mul_div_cancel' (Nat.dvd_of_mod_eq_zero handv)).symm⟩
        rw [hq]
        have hlenz : (List.zipWith (fun a b => a &&& b) ip' rest).length = rest.length := by
          rw [List.length_zipWith]
          omega
        rw [hlenz]
        have h256 : (256 : Nat) ^ rest.length = 2 ^ (8 * rest.length) := by
          rw [show (256 : Nat) = 2 ^ 8 by norm_num, ← pow_mul]
        rw [h256, show 2 ^ (8 - (highOnesAux 8 v).1) * q * 2 ^ (8 * rest.length)
            = 2 ^ (8 - (highOnesAux 8 v).1 + 8 * rest.length) * q by ring]
        apply Dvd.dvd.mul_right
        apply pow_dvd_pow
        simp only [List.length_cons]
        omega

/-! ## Lemmas: the emitted address is the masked base plus the host offset -/

theorem goMask_eq (ip mask : List Nat) (hlen : ip.length = mask.length) :
    goMask ip mask = List.zipWith (fun a b => a &&& b) ip mask := by
  simp only [goMask]
  split_ifs with h1 h2 h3 <;> first
    | rfl
    | (exfalso
       obtain ⟨ha, hb, -⟩ := h1
       omega)
    | (exfalso
       obtain ⟨ha, hb, -⟩ := h2
       omega)
    | (exfalso
       omega)

theorem hostBits_cases (net : IPNet) :
    hostBits net = 0 ∨ ∃ ones, simpleMaskLength net.mask = some ones ∧
      hostBits net = 8 * net.mask.length - ones := by
  simp only [hostBits, maskSize]
  cases hsm : simpleMaskLength net.mask with
  | none => left; rfl
  | some n => right; exact ⟨n, rfl, rfl⟩

theorem masked_mod_zero (net : IPNet) (hw : WfNet net) (h2 : 2 ≤ hostBits net) :
    beVal (goMask net.ip net.mask) % 2 ^ hostBits net = 0 ∧
      (∀ b ∈ goMask net.ip net.mask, b < 256) ∧
      hostBits net ≤ 8 * (goMask net.ip net.mask).length := by
  obtain ⟨hlen, hip, hmask⟩ := hw
  rcases hostBits_cases net with h0 | ⟨ones, hsm, hhb⟩
  · omega
  · rw [goMask_eq net.ip net.mask hlen]
    refine ⟨?_, zip_and_lt _ _ hip, ?_⟩
    · rw [hhb]
      exact maskedVal_zero net.mask net.ip hlen hip hmask ones hsm
    · rw [hhb, List.length_zipWith]
      omega

theorem hostAddr_val (net : IPNet) (hw : WfNet net) (h2 : 2 ≤ hostBits net) (v : Nat)
    (hv : v < 2 ^ hostBits net) :
    beVal (hostAddr net (v : Int)) = beVal (goMask net.ip net.mask) + v := by
  obtain ⟨hmod, hlt, hle⟩ := masked_mod_zero net hw h2
  simp only [hostAddr, orBE, beVal, Int.toNat_natCast, List.reverse_reverse]
  apply leVal_orLE
  · intro b hb
    exact hlt b (List.mem_reverse.mp hb)
  · exact hv
  · rw [List.length_reverse]
    exact hle
  · exact hmod

theorem hostAddr_inj (net : IPNet) (hw : WfNet net) (h2 : 2 ≤ hostBits net) (v1 v2 : Int)
    (h10 : 0 ≤ v1) (h1N : v1 < (2 : Int) ^ hostBits net)
    (h20 : 0 ≤ v2) (h2N : v2 < (2 : Int) ^ hostBits net)
    (heq : hostAddr net v1 = hostAddr net v2) : v1 = v2 := by
  have hc := two_pow_cast (hostBits net)
  obtain ⟨m1, rfl⟩ : ∃ m : Nat, v1 = (m : Int) := ⟨v1.toNat, by omega⟩
  obtain ⟨m2, rfl⟩ : ∃ m : Nat, v2 = (m : Int) := ⟨v2.toNat, by omega⟩
  have e1 := hostAddr_val net hw h2 m1 (by omega)
  have e2 := hostAddr_val net hw h2 m2 (by omega)
  have hbe : beVal (hostAddr net (m1 : Int)) = beVal (hostAddr net (m2 : Int)) := by rw [heq]
  rw [e1, e2] at hbe
  omega

/-! ## Lemmas: every emitted scan offset is strictly inside the host range -/

theorem scanStep_emit_range (n : Nat) (h : Int) (s : ScanState) (v : Int)
    (hv : (scanStep n h s).2 = some v) : 0 < v ∧ v < scanBound n := by
  rcases s with ⟨u, d, o⟩
  by_cases hud : u = false ∧ d = false
  · obtain ⟨rfl, rfl⟩ := hud
    rw [scanStep_both_false n h ⟨false, false, o⟩ rfl rfl,
      show scanInit = (⟨true, true, 0⟩ : ScanState) from rfl,
      scanStep_mk n h true true 0 (by simp)] at hv
    dsimp only at hv
    split_ifs at hv with hc
    cases hv
    constructor <;> omega
  · rw [scanStep_mk n h u d o hud] at hv
    dsimp only at hv
    split_ifs at hv with hc
    cases hv
    exact hc

theorem scanGo_emit_range (n : Nat) (h : Int) :
    ∀ (f : Nat) (s : ScanState) (v : Int), v ∈ (scanGo n h s f).2 →
      0 < v ∧ v < scanBound n := by
  intro f
  induction f with
  | zero =>
    intro s v hv
    simp [scanGo] at hv
  | succ f ih =>
    intro s v hv
    simp only [scanGo] at hv
    rw [List.mem_append] at hv
    rcases hv with hv | hv
    · cases hp : (scanStep n h s).2 with
      | none => rw [hp] at hv; simp at hv
      | some w =>
        rw [hp] at hv
        simp only [Option.toList_some, List.mem_singleton] at hv
        subst hv
        exact scanStep_emit_range n h s v hp
    · exact ih _ v hv

theorem scanStep_no_emit (n : Nat) (h : Int) (hB : scanBound n ≤ 0) (s : ScanState) :
    (scanStep n h s).2 = none := by
  cases hp : (scanStep n h s).2 with
  | none => rfl
  | some v =>
    have := scanStep_emit_range n h s v hp
    omega

theorem scanGo_no_emit (n : Nat) (h : Int) (hB : scanBound n ≤ 0) :
    ∀ (f : Nat) (s : ScanState), (scanGo n h s f).2 = [] := by
  intro f
  induction f with
  | zero => intro s; rfl
  | succ f ih =>
    intro s
    simp only [scanGo, scanStep_no_emit n h hB, Option.toList_none, List.nil_append]
    exact ih _

theorem scanLoop_none (n : Nat) (h : Int) (hB : scanBound n ≤ 0) :
    ∀ (f : Nat) (s : ScanState) (k : Nat), scanLoop n h f s k = none := by
  intro f
  induction f with
  | zero => intro s k; rfl
  | succ f ih =>
    intro s k
    simp only [scanLoop, scanStep_no_emit n h hB]
    exact ih _ _

/-! ## Lemmas: the close-session loop against the free-running machine -/

theorem scanLoop_of_emits (n : Nat) (h : Int) :
    ∀ (f : Nat) (s : ScanState) (k : Nat),
      k + 1 ≤ (scanGo n h s f).2.length →
      scanLoop n h f s k = some (((scanGo n h s f).2).take k) := by
  intro f
  induction f with
  | zero =>
    intro s k hk
    simp [scanGo] at hk
  | succ f ih =>
    intro s k hk
    have hgo : (scanGo n h s (f + 1)).2 =
        (scanStep n h s).2.toList ++ (scanGo n h (scanStep n h s).1 f).2 := by
      simp only [scanGo]
    cases hp : (scanStep n h s).2 with
    | none =>
      rw [hp] at hgo
      simp only [Option.toList_none, List.nil_append] at hgo
      rw [hgo] at hk ⊢
      simp only [scanLoop, hp]
      exact ih _ k hk
    | some v =>
      rw [hp] at hgo
      simp only [Option.toList_some, List.singleton_append] at hgo
      rw [hgo] at hk ⊢
      simp only [scanLoop, hp]
      cases k with
      | zero => simp
      | succ k' =>
        simp only [List.length_cons] at hk
        dsimp only
        rw [ih (scanStep n h s).1 k' (by omega)]
        simp [List.take_succ_cons]

theorem probe_pos (n : Nat) (h2 : 2 ≤ n) : (0 : Int) < (2 : Int) ^ n - 2 := by
  have hc := two_pow_cast n
  have h4 := two_pow_ge4 n h2
  omega

theorem probeLoop_some (n : Nat) (rnd : Nat → Nat) (h2 : 2 ≤ n) (hn63 : n ≤ 63) :
    ∀ (k i : Nat), ∃ l, probeLoop n rnd i k = some l ∧ l.length = k ∧
      ∀ v ∈ l, 0 < v ∧ v < (2 : Int) ^ n - 1 := by
  have he := intnArg_small n hn63
  have hm : 0 < intnArg n := by
    rw [he]
    exact probe_pos n h2
  intro k
  induction k with
  | zero => intro i; exact ⟨[], rfl, rfl, by simp⟩
  | succ k ih =>
    intro i
    obtain ⟨l, hl, hlen, hrange⟩ := ih (i + 1)
    have hd0 : 0 ≤ (rnd i : Int) % intnArg n :=
      Int.emod_nonneg _ (by omega)
    have hdm : (rnd i : Int) % intnArg n < intnArg n :=
      Int.emod_lt_of_pos _ hm
    refine ⟨((rnd i : Int) % intnArg n + 1) :: l, ?_, by simp [hlen], ?_⟩
    · simp only [probeLoop, randIntn, if_neg (by omega : ¬ intnArg n ≤ 0)]
      rw [hl]
      rfl
    · intro v hv
      rcases List.mem_cons.mp hv with hv | hv
      · subst hv
        omega
      · exact hrange v hv

theorem probeLoop_mem (n : Nat) (rnd : Nat → Nat) :
    ∀ (k i : Nat) (l : List Int), probeLoop n rnd i k = some l →
      ∀ v ∈ l, 0 < v ∧ v ≤ intnArg n := by
  intro k
  induction k with
  | zero =>
    intro i l hl v hv
    cases hl
    simp at hv
  | succ k ih =>
    intro i l hl v hv
    simp only [probeLoop] at hl
    cases hr : randIntn (intnArg n) (rnd i) with
    | none => rw [hr] at hl; cases hl
    | some d =>
      rw [hr] at hl
      simp only [Option.map_eq_some'] at hl
      obtain ⟨l1, hl1, rfl⟩ := hl
      have hd : 0 ≤ d ∧ d < intnArg n := by
        simp only [randIntn] at hr
        split_ifs at hr with hm
        cases hr
        exact ⟨Int.emod_nonneg _ (by omega), Int.emod_lt_of_pos _ (by omega)⟩
      rcases List.mem_cons.mp hv with rfl | hv1
      · omega
      · exact ih (i + 1) l1 hl1 v hv1

/-! ## Lemmas: the shape of an execution trace -/

theorem scanTraceLoop_shape (A : Int → List Nat) (n : Nat) (h : Int) (sched : Nat → Bool) :
    ∀ (f t : Nat) (s : ScanState),
      ∃ el : List (List Nat),
        (scanTraceLoop A n h sched f t s).1 =
          el.map SeedEv.emit ++
            (if (scanTraceLoop A n h sched f t s).2 then [SeedEv.quitObs] else []) := by
  intro f
  induction f with
  | zero =>
    intro t s
    exact ⟨[], by simp [scanTraceLoop]⟩
  | succ f ih =>
    intro t s
    cases hp : (scanStep n h s).2 with
    | none =>
      obtain ⟨el, hel⟩ := ih (t + 1) (scanStep n h s).1
      refine ⟨el, ?_⟩
      simp only [scanTraceLoop, hp]
      exact hel
    | some v =>
      by_cases hs : sched t
      · refine ⟨[], ?_⟩
        simp [scanTraceLoop, hp, hs]
      · obtain ⟨el, hel⟩ := ih (t + 1) (scanStep n h s).1
        refine ⟨A v :: el, ?_⟩
        simp only [scanTraceLoop, hp, hs, Bool.false_eq_true, if_false, List.map_cons,
          List.cons_append]
        rw [hel]

theorem probeTraceLoop_shape (A : Int → List Nat) (n : Nat) (rnd : Nat → Nat)
    (sched : Nat → Bool) :
    ∀ (f t : Nat),
      ∃ el : List (List Nat),
        (probeTraceLoop A n rnd sched f t).1 =
          el.map SeedEv.emit ++
            (if (probeTraceLoop A n rnd sched f t).2 then [SeedEv.quitObs] else []) := by
  intro f
  induction f with
  | zero =>
    intro t
    exact ⟨[], by simp [probeTraceLoop]⟩
  | succ f ih =>
    intro t
    cases hp : randIntn (intnArg n) (rnd t) with
    | none =>
      refine ⟨[], ?_⟩
      simp [probeTraceLoop, hp]
    | some d =>
      by_cases hs : sched t
      · refine ⟨[], ?_⟩
        simp [probeTraceLoop, hp, hs]
      · obtain ⟨el, hel⟩ := ih (t + 1)
        refine ⟨A (d + 1) :: el, ?_⟩
        simp only [probeTraceLoop, hp, hs, Bool.false_eq_true, if_false, List.map_cons,
          List.cons_append]
        rw [hel]

/-- Canonical shapes of a full trace: emissions followed by quit observation and
delivery, or emissions only (generator still running). -/
def TraceShaped (tr : List SeedEv) : Prop :=
  (∃ el : List (List Nat), ∃ err : Option SeedErr,
      tr = el.map SeedEv.emit ++ [SeedEv.quitObs, SeedEv.deliver err]) ∨
    ∃ el : List (List Nat), tr = el.map SeedEv.emit

theorem scanTrace_shape (net : IPNet) (phase : Nat → Nat) (sched : Nat → Bool) (fuel : Nat) :
    TraceShaped (scanTrace net phase sched fuel) := by
  by_cases hhb : hostBits net < 2
  · left
    exact ⟨[], some (.addressSpaceTooSmall (hostBits net)), by simp [scanTrace, hhb]⟩
  · obtain ⟨el, hel⟩ := scanTraceLoop_shape (fun v => hostAddr net v) (hostBits net)
      (hostIPof net) sched fuel 0 scanInit
    cases hq : (scanTraceLoop (fun v => hostAddr net v) (hostBits net) (hostIPof net)
        sched fuel 0 scanInit).2 with
    | false =>
      right
      refine ⟨el, ?_⟩
      rw [hq] at hel
      simp only [Bool.false_eq_true, if_false, List.append_nil] at hel
      simp only [scanTrace, hhb, if_false]
      rw [hq, hel]
      simp
    | true =>
      left
      refine ⟨el, none, ?_⟩
      rw [hq] at hel
      simp only [if_true] at hel
      simp only [scanTrace, hhb, if_false]
      rw [hq, hel]
      simp

theorem probeTrace_shape (net : IPNet) (phase : Nat → Nat) (rnd : Nat → Nat)
    (sched : Nat → Bool) (fuel : Nat) :
    TraceShaped (probeTrace net phase rnd sched fuel) := by
  by_cases hhb : hostBits net < 2
  · left
    exact ⟨[], some (.addressSpaceTooSmall (hostBits net)), by simp [probeTrace, hhb]⟩
  · obtain ⟨el, hel⟩ := probeTraceLoop_shape (fun v => hostAddr net v) (hostBits net)
      rnd sched fuel 0
    cases hq : (probeTraceLoop (fun v => hostAddr net v) (hostBits net) rnd sched fuel 0).2 with
    | false =>
      right
      refine ⟨el, ?_⟩
      rw [hq] at hel
      simp only [Bool.false_eq_true, if_false, List.append_nil] at hel
      simp only [probeTrace, hhb, if_false]
      rw [hq, hel]
      simp
    | true =>
      left
      refine ⟨el, none, ?_⟩
      rw [hq] at hel
      simp only [if_true] at hel
      simp only [probeTrace, hhb, if_false]
      rw [hq, hel]
      simp

theorem two_elem_getElem (x y : SeedEv) :
    ∀ d : Nat, ([x, y] : List SeedEv)[d]? =
      if d = 0 then some x else if d = 1 then some y else none := by
  intro d
  match d with
  | 0 => rfl
  | 1 => rfl
  | d + 2 => simp

theorem traceShaped_no_emit_after_quit (tr : List SeedEv) (hsh : TraceShaped tr) :
    ∀ (i j : Nat) (a : List Nat), i < j → tr[i]? = some SeedEv.quitObs →
      tr[j]? ≠ some (SeedEv.emit a) := by
  intro i j a hij hqi hej
  rcases hsh with ⟨el, err, rfl⟩ | ⟨el, rfl⟩
  · set L := (el.map SeedEv.emit).length with hL
    have hiL : L ≤ i := by
      by_contra hcon
      rw [List.getElem?_append_left (by omega), List.getElem?_map] at hqi
      cases hgi : el[i]? with
      | none => rw [hgi] at hqi; cases hqi
      | some b => rw [hgi] at hqi; cases hqi
    rw [List.getElem?_append_right hiL, two_elem_getElem] at hqi
    have hieq : i = L := by
      by_contra hne
      rcases (by omega : i - L = 1 ∨ 2 ≤ i - L) with hc | hc
      · rw [if_neg (by omega), if_pos hc] at hqi
        simp at hqi
      · rw [if_neg (by omega), if_neg (by omega)] at hqi
        simp at hqi
    have hjL : L ≤ j := by omega
    rw [List.getElem?_append_right hjL, two_elem_getElem] at hej
    rcases (by omega : j - L = 1 ∨ 2 ≤ j - L) with hc | hc
    · rw [if_neg (by omega), if_pos hc] at hej
      simp at hej
    · rw [if_neg (by omega), if_neg (by omega)] at hej
      simp at hej
  · cases hgi : (el.map SeedEv.emit)[i]? with
    | none => rw [hgi] at hqi; cases hqi
    | some b =>
      rw [hgi] at hqi
      rw [List.getElem?_map] at hgi
      cases hgi2 : el[i]? with
      | none => rw [hgi2] at hgi; cases hgi
      | some c =>
        rw [hgi2] at hgi
        cases hgi
        cases hqi
  -- no case left

theorem traceShaped_deliver_last (tr : List SeedEv) (hsh : TraceShaped tr) :
    ∀ (j : Nat) (e : Option SeedErr), tr[j]? = some (SeedEv.deliver e) →
      j = tr.length - 1 ∧ ∃ i, i < j ∧ tr[i]? = some SeedEv.quitObs := by
  intro j e hj
  rcases hsh with ⟨el, err, rfl⟩ | ⟨el, rfl⟩
  · set L := (el.map SeedEv.emit).length with hL
    have hjL : L ≤ j := by
      by_contra hcon
      rw [List.getElem?_append_left (by omega), List.getElem?_map] at hj
      cases hgj : el[j]? with
      | none => rw [hgj] at hj; cases hj
      | some b => rw [hgj] at hj; cases hj
    rw [List.getElem?_append_right hjL, two_elem_getElem] at hj
    have hjeq : j - L = 1 := by
      by_contra hne
      rcases (by omega : j - L = 0 ∨ 2 ≤ j - L) with hc | hc
      · rw [if_pos hc] at hj
        simp at hj
      · rw [if_neg (by omega), if_neg (by omega)] at hj
        simp at hj
    constructor
    · rw [List.length_append]
      simp only [List.length_cons, List.length_nil]
      omega
    · refine ⟨L, by omega, ?_⟩
      rw [List.getElem?_append_right (by omega : L ≤ L), two_elem_getElem]
      rw [if_pos (by omega)]
  · exfalso
    cases hgj : (el.map SeedEv.emit)[j]? with
    | none => rw [hgj] at hj; cases hj
    | some b =>
      rw [hgj] at hj
      rw [List.getElem?_map] at hgj
      cases hgj2 : el[j]? with
      | none => rw [hgj2] at hgj; cases hgj
      | some c =>
        rw [hgj2] at hgj
        cases hgj
        cases hj

/-! ## Lemmas: counting occurrences of an address -/

theorem countAddr_nil (a : List Nat) : countAddr a [] = 0 := rfl

theorem countAddr_cons (a b : List Nat) (t : List (List Nat)) :
    countAddr a (b :: t) = (if b = a then 1 else 0) + countAddr a t := by
  by_cases hba : b = a
  · simp [countAddr, List.filter_cons, hba]
    omega
  · simp [countAddr, List.filter_cons, hba]

theorem countAddr_append (a : List Nat) (l1 l2 : List (List Nat)) :
    countAddr a (l1 ++ l2) = countAddr a l1 + countAddr a l2 := by
  simp [countAddr, List.filter_append]

theorem countAddr_not_mem (a : List Nat) (l : List (List Nat)) (h : a ∉ l) :
    countAddr a l = 0 := by
  induction l with
  | nil => rfl
  | cons b t ih =>
    rw [countAddr_cons, if_neg (fun he => h (by simp [he.symm])),
      ih (fun he => h (by simp [he]))]

theorem countAddr_nodup_mem (a : List Nat) (l : List (List Nat)) (hnd : l.Nodup)
    (h : a ∈ l) : countAddr a l = 1 := by
  induction l with
  | nil => simp at h
  | cons b t ih =>
    rw [List.nodup_cons] at hnd
    rw [countAddr_cons]
    rcases List.mem_cons.mp h with rfl | hat
    · rw [if_pos rfl, countAddr_not_mem a t hnd.1]
    · rw [if_neg ?_, ih hnd.2 hat]
      intro he
      rw [he] at hnd
      exact hnd.1 hat

/-! ## Assembly lemmas for claim C1 -/

theorem scan_machine_take_two_cycles (n : Nat) (h : Int) (h2 : 2 ≤ n) (hn63 : n ≤ 63)
    (fuel : Nat)
    (henough : 2 * (2 ^ n - 2) ≤ (scanGo n h scanInit fuel).2.length) :
    ((scanGo n h scanInit fuel).2).take (2 * (2 ^ n - 2)) =
      emitsUpTo n h (cycleLen n h) ++ emitsUpTo n h (cycleLen n h) := by
  have hCLlen := emits_length n h h2
  have h2L := scan_two_cycles_emits n h h2 hn63
  have hlen2 : (emitsUpTo n h (cycleLen n h) ++ emitsUpTo n h (cycleLen n h)).length
      = 2 * (2 ^ n - 2) := by
    rw [List.length_append, hCLlen]
    omega
  rcases le_total fuel (2 * cycleLen n h) with hf | hf
  · obtain ⟨l, hl⟩ := scanGo_mono n h scanInit fuel (2 * cycleLen n h) hf
    rw [h2L] at hl
    have hlfuel := congrArg List.length hl
    rw [hlen2, List.length_append] at hlfuel
    have hl0 : l = [] := List.length_eq_zero.mp (by omega)
    rw [hl0, List.append_nil] at hl
    rw [← hl, ← hlen2, List.take_length]
  · obtain ⟨l, hl⟩ := scanGo_mono n h scanInit (2 * cycleLen n h) fuel hf
    rw [h2L] at hl
    rw [hl, ← hlen2, List.take_left]

/-! ## The claims -/

/-- C1 (amended): for every well-formed subnet with `2 ≤ hostBits ≤ 63` —
the widths at which the machine shift `1 << uint(hostBits)` does not wrap —
the first `2·(2^hostBits − 2)` addresses emitted by the Linear-Scan strategy
contain exactly `2^hostBits − 2` distinct addresses and each occurs exactly
twice (one full cycle of the valid host range followed by one complete
restart).  At `hostBits ≥ 64` the wrapped up-boundary −1 makes the strategy
skip every candidate, so no such sample ever exists (see the counterexample
on `net64`). -/
theorem scan_first_two_cycles_each_twice (net : IPNet) (hw : WfNet net)
    (h2 : 2 ≤ hostBits net) (hn63 : hostBits net ≤ 63) (phase : Nat → Nat) (fuel : Nat)
    (henough : 2 * (2 ^ hostBits net - 2) ≤ (scanEmitted net phase fuel).length) :
    ((scanEmitted net phase fuel).take (2 * (2 ^ hostBits net - 2))).toFinset.card
        = 2 ^ hostBits net - 2 ∧
      ∀ a ∈ (scanEmitted net phase fuel).take (2 * (2 ^ hostBits net - 2)),
        countAddr a ((scanEmitted net phase fuel).take (2 * (2 ^ hostBits net - 2))) = 2 := by
  have hne : ¬ hostBits net < 2 := by omega
  have hse : scanEmitted net phase fuel =
      ((scanGo (hostBits net) (hostIPof net) scanInit fuel).2).map (fun v => hostAddr net v) := by
    simp only [scanEmitted, if_neg hne]
  rw [hse] at henough ⊢
  rw [List.length_map] at henough
  rw [← List.map_take,
    scan_machine_take_two_cycles (hostBits net) (hostIPof net) h2 hn63 fuel henough]
  have hCLmem : ∀ v ∈ emitsUpTo (hostBits net) (hostIPof net) (cycleLen (hostBits net) (hostIPof net)),
      0 < v ∧ v < (2 : Int) ^ hostBits net - 1 :=
    fun v hv => (mem_emits_iff (hostBits net) (hostIPof net) h2 v).mp hv
  have hinjCL : ∀ x ∈ emitsUpTo (hostBits net) (hostIPof net) (cycleLen (hostBits net) (hostIPof net)),
      ∀ y ∈ emitsUpTo (hostBits net) (hostIPof net) (cycleLen (hostBits net) (hostIPof net)),
      hostAddr net x = hostAddr net y → x = y := by
    intro x hx y hy hxy
    have hxm := hCLmem x hx
    have hym := hCLmem y hy
    have hpos : (0 : Int) < 2 ^ hostBits net := by positivity
    exact hostAddr_inj net hw h2 x y (by omega) (by omega) (by omega) (by omega) hxy
  have hndp : ((emitsUpTo (hostBits net) (hostIPof net)
      (cycleLen (hostBits net) (hostIPof net))).map (fun v => hostAddr net v)).Nodup :=
    List.Nodup.map_on hinjCL (emits_nodup _ _ _)
  constructor
  · rw [List.map_append, List.toFinset_append, Finset.union_self,
      List.toFinset_card_of_nodup hndp, List.length_map, emits_length _ _ h2]
  · intro a ha
    rw [List.map_append] at ha ⊢
    have ha' : a ∈ (emitsUpTo (hostBits net) (hostIPof net)
        (cycleLen (hostBits net) (hostIPof net))).map (fun v => hostAddr net v) := by
      rcases List.mem_append.mp ha with h | h <;> exact h
    rw [countAddr_append, countAddr_nodup_mem a _ hndp ha']

/-- Witness for C1 on the subnet `192.168.0.100/30` (scenario A of the spec):
2 host bits, 4 pulls, 2 distinct addresses. -/
theorem scan_first_two_cycles_each_twice_witness :
    WfNet net30 ∧ 2 ≤ hostBits net30 ∧ hostBits net30 ≤ 63 ∧
      2 * (2 ^ hostBits net30 - 2) ≤ (scanEmitted net30 phase0 12).length ∧
      ((scanEmitted net30 phase0 12).take (2 * (2 ^ hostBits net30 - 2))).toFinset.card
        = 2 ^ hostBits net30 - 2 :=
  ⟨by decide, by decide, by decide, by decide,
    (scan_first_two_cycles_each_twice net30 (by decide) (by decide) (by decide) phase0 12
      (by decide)).1⟩

/-- C1 (counterexample): on the well-formed IPv6 subnet `fe80::1/64` the
machine shift wraps, the scan up-boundary becomes −1, every candidate is
skipped and the Linear-Scan strategy never emits a single address — the
claimed sample of `2·(2^64 − 2)` emissions therefore never exists even though
`hostBits = 64 ≥ 2`. -/
theorem scan_never_emits_on_wrapped_width :
    WfNet net64 ∧ 2 ≤ hostBits net64 ∧ 0 < 2 ^ hostBits net64 - 2 ∧
      ∀ fuel, scanEmitted net64 phase0 fuel = [] := by
  have hb : hostBits net64 = 64 := by decide
  refine ⟨by decide, by decide, by decide, ?_⟩
  intro fuel
  have hB : scanBound (hostBits net64) ≤ 0 := by
    rw [hb, scanBound_wrap 64 le_rfl]
    norm_num
  have hne : ¬ hostBits net64 < 2 := by
    rw [hb]
    norm_num
  simp only [scanEmitted, if_neg hne,
    scanGo_no_emit (hostBits net64) (hostIPof net64) hB fuel scanInit, List.map_nil]

/-- C2: for every well-formed subnet with `hostBits ≥ 2`, every address emitted
on the sink by either strategy corresponds to a host offset `v` with
`0 < v < 2^hostBits − 1`; the network address (offset 0) and the broadcast
address (offset `2^hostBits − 1`) are never emitted. -/
theorem emitted_inside_host_range (net : IPNet) (hw : WfNet net) (h2 : 2 ≤ hostBits net)
    (phase : Nat → Nat) (fuel : Nat) (rnd : Nat → Nat) (k : Nat) :
    (∀ a ∈ scanEmitted net phase fuel,
        ∃ v : Int, 0 < v ∧ v < (2 : Int) ^ hostBits net - 1 ∧ a = hostAddr net v ∧
          a ≠ hostAddr net 0 ∧ a ≠ hostAddr net ((2 : Int) ^ hostBits net - 1)) ∧
      ∀ l r, probeSession net phase rnd k = some (l, r) → ∀ a ∈ l,
        ∃ v : Int, 0 < v ∧ v < (2 : Int) ^ hostBits net - 1 ∧ a = hostAddr net v ∧
          a ≠ hostAddr net 0 ∧ a ≠ hostAddr net ((2 : Int) ^ hostBits net - 1) := by
  have hne : ¬ hostBits net < 2 := by omega
  have hpos : (0 : Int) < 2 ^ hostBits net := by positivity
  have hkey : ∀ v : Int, 0 < v → v < (2 : Int) ^ hostBits net - 1 →
      hostAddr net v ≠ hostAddr net 0 ∧
        hostAddr net v ≠ hostAddr net ((2 : Int) ^ hostBits net - 1) := by
    intro v hv0 hvN
    constructor
    · intro heq
      have := hostAddr_inj net hw h2 v 0 (by omega) (by omega) (by omega) (by omega) heq
      omega
    · intro heq
      have := hostAddr_inj net hw h2 v ((2 : Int) ^ hostBits net - 1)
        (by omega) (by omega) (by omega) (by omega) heq
      omega
  constructor
  · intro a ha
    simp only [scanEmitted, if_neg hne, List.mem_map] at ha
    obtain ⟨v, hv, rfl⟩ := ha
    have hr := scanGo_emit_range (hostBits net) (hostIPof net) fuel scanInit v hv
    have hvN : v < (2 : Int) ^ hostBits net - 1 :=
      lt_of_lt_of_le hr.2 (scanBound_le (hostBits net))
    exact ⟨v, hr.1, hvN, rfl, hkey v hr.1 hvN⟩
  · intro l r hlr a ha
    simp only [probeSession, if_neg hne, Option.map_eq_some'] at hlr
    obtain ⟨l1, hl1, hpair⟩ := hlr
    have hl : l = l1.map (fun v => hostAddr net v) := (congrArg Prod.fst hpair).symm
    rw [hl] at ha
    simp only [List.mem_map] at ha
    obtain ⟨v, hv, rfl⟩ := ha
    have hr := probeLoop_mem (hostBits net) rnd k 0 l1 hl1 v hv
    have hi := intnArg_le (hostBits net)
    have hvN : v < (2 : Int) ^ hostBits net - 1 := by omega
    exact ⟨v, hr.1, hvN, rfl, hkey v hr.1 hvN⟩

/-- Witness for C2 on `192.168.0.100/30`: the first scanned address
`192.168.0.101` is a valid host, not the network or broadcast address. -/
theorem emitted_inside_host_range_witness :
    WfNet net30 ∧
      (∃ v : Int, 0 < v ∧ v < (2 : Int) ^ hostBits net30 - 1 ∧
        [192, 168, 0, 101] = hostAddr net30 v ∧
        [192, 168, 0, 101] ≠ hostAddr net30 0 ∧
        [192, 168, 0, 101] ≠ hostAddr net30 ((2 : Int) ^ hostBits net30 - 1)) :=
  ⟨by decide,
    (emitted_inside_host_range net30 (by decide) (by decide) phase0 6 (fun i => i) 0).1
      [192, 168, 0, 101] (by decide)⟩

/-- C3 (amended): for every subnet with `hostBits < 2`, a started strategy
emits nothing and `Close` returns the address-space-too-small error; for
`2 ≤ hostBits ≤ 63` the session delivers the requested addresses and `Close`
returns `nil` — indeed no completed session ever reports a non-nil error.  (At
`hostBits ≥ 64` the machine shift wraps: the scan session never completes, so
`Close` blocks forever, and the probe run dies in `rand.Intn`.) -/
theorem close_error_semantics (net : IPNet) (phase : Nat → Nat) (k : Nat)
    (rnd : Nat → Nat) (fuel : Nat) :
    (hostBits net < 2 →
      scanSession net phase k fuel
          = some ([], some (.addressSpaceTooSmall (hostBits net))) ∧
        probeSession net phase rnd k
          = some ([], some (.addressSpaceTooSmall (hostBits net)))) ∧
      (2 ≤ hostBits net → hostBits net ≤ 63 →
        (∃ fuel2 l, scanSession net phase k fuel2 = some (l, none) ∧ l.length = k) ∧
        (∃ l, probeSession net phase rnd k = some (l, none) ∧ l.length = k) ∧
        (∀ f2 l r, scanSession net phase k f2 = some (l, r) → r = none) ∧
        (∀ l r, probeSession net phase rnd k = some (l, r) → r = none)) := by
  constructor
  · intro hlt
    constructor <;> simp [scanSession, probeSession, hlt]
  · intro h2 hn63
    have hne : ¬ hostBits net < 2 := by omega
    have hCL := emits_length (hostBits net) (hostIPof net) h2
    have h4 := two_pow_ge4 (hostBits net) h2
    refine ⟨?_, ?_, ?_, ?_⟩
    · have hlenL := scan_cycles_length (hostBits net) (hostIPof net) h2 hn63 (k + 1)
      have hlen : k + 1 ≤ (scanGo (hostBits net) (hostIPof net) scanInit
          ((k + 1) * cycleLen (hostBits net) (hostIPof net))).2.length := by
        rw [hlenL, hCL]
        calc k + 1 = (k + 1) * 1 := by ring
        _ ≤ (k + 1) * (2 ^ hostBits net - 2) := Nat.mul_le_mul_left _ (by omega)
      refine ⟨(k + 1) * cycleLen (hostBits net) (hostIPof net),
        (((scanGo (hostBits net) (hostIPof net) scanInit
          ((k + 1) * cycleLen (hostBits net) (hostIPof net))).2).take k).map
            (fun v => hostAddr net v), ?_, ?_⟩
      · simp only [scanSession, if_neg hne]
        rw [scanLoop_of_emits (hostBits net) (hostIPof net) _ scanInit k hlen]
        rfl
      · rw [List.length_map, List.length_take]
        omega
    · obtain ⟨l0, hl0, hlen0, -⟩ := probeLoop_some (hostBits net) rnd h2 hn63 k 0
      refine ⟨l0.map (fun v => hostAddr net v), ?_, ?_⟩
      · simp only [probeSession, if_neg hne]
        rw [hl0]
        rfl
      · rw [List.length_map]
        exact hlen0
    · intro f2 l r hs
      simp only [scanSession, if_neg hne, Option.map_eq_some'] at hs
      obtain ⟨l0, -, hpair⟩ := hs
      exact (congrArg Prod.snd hpair).symm
    · intro l r hs
      simp only [probeSession, if_neg hne, Option.map_eq_some'] at hs
      obtain ⟨l0, -, hpair⟩ := hs
      exact (congrArg Prod.snd hpair).symm

/-- Witness for C3 on `192.168.0.100/31` (scenario B of the spec): no address
is emitted and `Close` surfaces the one-bit address space error. -/
theorem close_error_semantics_witness :
    hostBits net31 < 2 ∧
      scanSession net31 phase0 2 7
        = some ([], some (SeedErr.addressSpaceTooSmall 1)) ∧
      probeSession net31 phase0 (fun i => i) 2
        = some ([], some (SeedErr.addressSpaceTooSmall 1)) :=
  ⟨by decide,
    ((close_error_semantics net31 phase0 2 (fun i => i) 7).1 (by decide)).1,
    ((close_error_semantics net31 phase0 2 (fun i => i) 7).1 (by decide)).2⟩

/-- C3 (counterexample): on the well-formed IPv6 subnet `fe80::1/64` the
machine shift wraps, so despite `hostBits = 64 ≥ 2` the scan run never emits —
no fuel completes a session asking for two addresses, i.e. `Close` blocks
forever rather than returning `nil` — and the probe run dies in `rand.Intn`
before delivering anything. -/
theorem close_blocks_on_wrapped_width :
    2 ≤ hostBits net64 ∧
      (∀ fuel, scanSession net64 phase0 2 fuel = none) ∧
      probeSession net64 phase0 (fun i => i) 1 = none := by
  have hb : hostBits net64 = 64 := by decide
  refine ⟨by decide, ?_, rfl⟩
  intro fuel
  have hB : scanBound (hostBits net64) ≤ 0 := by
    rw [hb, scanBound_wrap 64 le_rfl]
    norm_num
  have hne : ¬ hostBits net64 < 2 := by
    rw [hb]
    norm_num
  simp only [scanSession, if_neg hne,
    scanLoop_none (hostBits net64) (hostIPof net64) hB fuel scanInit 2, Option.map_none']

/-- C4 (code bug evaluation): on the subnet `192.168.1.100/20` (12 host bits)
the scan origin computed by the code is 101, while the host's own offset — the
low 12 bits of the base address, as the spec and the file's own comment
describe — is 356: the `hostIP` loop adds the bit
`IP[len-1-i/8] & (1 << i%8)` without shifting it to weight `2^i`, so host
bytes above the lowest lose their byte-position weight.  The first emitted
address is accordingly the one at offset 101, not the host's own offset. -/
theorem scan_origin_bug_eval :
    hostIPof net20 = 101 ∧ specHostOffset net20 = 356 ∧
      hostIPof net20 ≠ specHostOffset net20 ∧
      scanEmitted net20 phase0 1 = [hostAddr net20 101] ∧
      hostAddr net20 101 ≠ hostAddr net20 356 := by
  refine ⟨by decide, by decide, by decide, by decide, by decide⟩

/-- C5: the Linear-Scan candidate generation follows the zig-zag schedule:
the candidate is `origin + offset` and the offset update flips the sign and
increments when non-negative, producing offsets 0, +1, −1, +2, −2, …; a
candidate at or below 0 disables downward scanning and is skipped, one at or
above `2^hostBits − 1` disables upward scanning and is skipped, and when both
directions are disabled the step behaves exactly like a fresh start (offset 0,
both directions re-enabled) — the machine continues rather than terminating.
Amended: the up-boundary equals `2^hostBits − 1` only while `hostBits ≤ 63`;
at 64 bits and beyond the machine boundary wraps to −1 and in-range candidates
are skipped instead of emitted. -/
theorem zigzag_schedule (n : Nat) (h : Int) (h2 : 2 ≤ n) (hn63 : n ≤ 63) (t : Nat)
    (ht : t ≤ cycleLen n h) (s : ScanState) (hs : ¬(s.up = false ∧ s.down = false)) :
    ((scanStep n h s).1.offset = (if 0 ≤ -s.offset then -s.offset + 1 else -s.offset)) ∧
      (h + s.offset ≤ 0 → (scanStep n h s).1.down = false ∧ (scanStep n h s).2 = none) ∧
      ((2 : Int) ^ n - 1 ≤ h + s.offset → ¬(h + s.offset ≤ 0) →
        (scanStep n h s).1.up = false ∧ (scanStep n h s).2 = none) ∧
      (0 < h + s.offset → h + s.offset < (2 : Int) ^ n - 1 →
        (scanStep n h s).2 = some (h + s.offset) ∧ (scanStep n h s).1.up = s.up ∧
          (scanStep n h s).1.down = s.down) ∧
      (∀ s' : ScanState, s'.up = false → s'.down = false →
        scanStep n h s' = scanStep n h scanInit) ∧
      (scanGo n h scanInit t).1.offset = zig t ∧
      zig 0 = 0 ∧
      ∀ k : Nat, zig (2 * k + 1) = (k : Int) + 1 ∧ zig (2 * k + 2) = -((k : Int) + 1) := by
  obtain ⟨u, d, o⟩ := s
  rw [scanStep_mk n h u d o hs]
  rw [scanBound_small n hn63]
  dsimp only
  refine ⟨rfl, ?_, ?_, ?_, fun s' hu hd => scanStep_both_false n h s' hu hd, ?_,
    zig_zero, fun k => ⟨zig_odd k, zig_even k⟩⟩
  · intro hc
    refine ⟨if_pos hc, if_neg ?_⟩
    rintro ⟨hc1, -⟩
    omega
  · intro hcN hc0
    refine ⟨if_pos ⟨hcN, hc0⟩, if_neg ?_⟩
    rintro ⟨-, hc2⟩
    omega
  · intro h1 hN
    refine ⟨if_pos ⟨h1, hN⟩, if_neg ?_, if_neg (by omega)⟩
    rintro ⟨hcN, -⟩
    omega
  · rw [scan_inv n h h2 hn63 t ht]

/-- Witness for C5 at `hostBits = 2`, origin 0, three steps in, and a concrete
non-exhausted state. -/
theorem zigzag_schedule_witness :
    3 ≤ cycleLen 2 0 ∧ (scanGo 2 0 scanInit 3).1.offset = zig 3 :=
  ⟨by decide,
    (zigzag_schedule 2 0 (by norm_num) (by norm_num) 3 (by decide) ⟨true, true, 2⟩
      (by simp)).2.2.2.2.2.1⟩

/-- C5 (counterexample): at `hostBits = 64` the machine up-boundary is the
wrapped value −1, so candidate 1 — strictly between 0 and `2^64 − 1` — hits
the up-boundary check instead of being emitted: the very first step from a
fresh state disables upward scanning and emits nothing. -/
theorem zigzag_wrap_skips_valid_candidate :
    (0 : Int) < 1 ∧ (1 : Int) < (2 : Int) ^ 64 - 1 ∧ scanBound 64 = -1 ∧
      (scanStep 64 1 scanInit).2 = none ∧ (scanStep 64 1 scanInit).1.up = false := by
  refine ⟨by norm_num, by norm_num, scanBound_wrap 64 le_rfl, rfl, rfl⟩

/-- C6: the shutdown protocol as seen on the event traces of both strategies:
once the quit request has been observed, no address is ever emitted again, and
the terminal outcome delivery (what unblocks `Close`) is the final event of the
trace and strictly follows the quit observation — so `Close` cannot return
while the background run may still touch the sink. -/
theorem shutdown_protocol_trace (net : IPNet) (phase : Nat → Nat) (sched : Nat → Bool)
    (rnd : Nat → Nat) (fuel : Nat) :
    ((∀ (i j : Nat) (a : List Nat), i < j →
        (scanTrace net phase sched fuel)[i]? = some SeedEv.quitObs →
        (scanTrace net phase sched fuel)[j]? ≠ some (SeedEv.emit a)) ∧
      ∀ (j : Nat) (e : Option SeedErr),
        (scanTrace net phase sched fuel)[j]? = some (SeedEv.deliver e) →
        j = (scanTrace net phase sched fuel).length - 1 ∧
          ∃ i, i < j ∧ (scanTrace net phase sched fuel)[i]? = some SeedEv.quitObs) ∧
      (∀ (i j : Nat) (a : List Nat), i < j →
        (probeTrace net phase rnd sched fuel)[i]? = some SeedEv.quitObs →
        (probeTrace net phase rnd sched fuel)[j]? ≠ some (SeedEv.emit a)) ∧
      ∀ (j : Nat) (e : Option SeedErr),
        (probeTrace net phase rnd sched fuel)[j]? = some (SeedEv.deliver e) →
        j = (probeTrace net phase rnd sched fuel).length - 1 ∧
          ∃ i, i < j ∧ (probeTrace net phase rnd sched fuel)[i]? = some SeedEv.quitObs :=
  ⟨⟨traceShaped_no_emit_after_quit _ (scanTrace_shape net phase sched fuel),
      traceShaped_deliver_last _ (scanTrace_shape net phase sched fuel)⟩,
    traceShaped_no_emit_after_quit _ (probeTrace_shape net phase rnd sched fuel),
    traceShaped_deliver_last _ (probeTrace_shape net phase rnd sched fuel)⟩

/-- Witness for C6: under the schedule that stops at the third select, the
event after the quit observation is not an emission. -/
theorem shutdown_protocol_trace_witness :
    (1 < 2 ∧ (scanTrace net30 phase0 (fun t => decide (t = 3)) 10)[1]?
        = some SeedEv.quitObs) ∧
      (scanTrace net30 phase0 (fun t => decide (t = 3)) 10)[2]?
        ≠ some (SeedEv.emit [192, 168, 0, 101]) :=
  ⟨⟨by norm_num, by decide⟩,
    (shutdown_protocol_trace net30 phase0 (fun t => decide (t = 3)) (fun i => i) 10).1.1
      1 2 [192, 168, 0, 101] (by norm_num) (by decide)⟩

/-- C7 (counterexample): constructing a strategy for a malformed mask/address
pairing (a 16-byte mask on a 4-byte address) does NOT fail: both constructors
return a `nil` error, so no `InvalidSubnet` error is surfaced at construction. -/
theorem construction_never_fails_counterexample :
    (newScanSeeder netBad).2 = none ∧ (newProbeSeeder netBad).2 = none :=
  ⟨rfl, rfl⟩

/-- C7 (amended): constructing a strategy never fails — `newScanSeeder` and
`newProbeSeeder` return a `nil` error for every subnet, including malformed
mask/address pairings; no validation happens at construction. -/
theorem construction_always_nil (net : IPNet) :
    (newScanSeeder net).2 = none ∧ (newProbeSeeder net).2 = none :=
  ⟨rfl, rfl⟩

/-- C8: the emitted addresses, the session results and the full event traces of
both strategies do not depend on the value stored behind the phase pointer —
the background runs never read it. -/
theorem phase_not_read (net : IPNet) (p1 p2 : Nat → Nat) (fuel k : Nat)
    (rnd : Nat → Nat) (sched : Nat → Bool) :
    scanEmitted net p1 fuel = scanEmitted net p2 fuel ∧
      scanSession net p1 k fuel = scanSession net p2 k fuel ∧
      probeSession net p1 rnd k = probeSession net p2 rnd k ∧
      scanTrace net p1 sched fuel = scanTrace net p2 sched fuel ∧
      probeTrace net p1 rnd sched fuel = probeTrace net p2 rnd sched fuel :=
  ⟨rfl, rfl, rfl, rfl, rfl⟩

/-- C9: `Start` returns `nil` for every subnet, valid or not; a validation
failure is observable only through the later `Close` (here: the session's
close outcome). -/
theorem start_always_nil (net : IPNet) (phase : Nat → Nat) (k fuel : Nat)
    (rnd : Nat → Nat) :
    scanStart ⟨net⟩ phase = none ∧ probeStart ⟨net⟩ phase = none ∧
      (hostBits net < 2 →
        scanSession net phase k fuel
            = some ([], some (.addressSpaceTooSmall (hostBits net))) ∧
          probeSession net phase rnd k
            = some ([], some (.addressSpaceTooSmall (hostBits net)))) := by
  refine ⟨rfl, rfl, fun hlt => ?_⟩
  constructor <;> simp [scanSession, probeSession, hlt]

/-- Witness for C9 on the invalid subnet `192.168.0.100/31`. -/
theorem start_always_nil_witness :
    hostBits net31 < 2 ∧
      scanSession net31 phase0 3 5
        = some ([], some (SeedErr.addressSpaceTooSmall 1)) :=
  ⟨by decide, ((start_always_nil net31 phase0 3 5 (fun i => i)).2.2 (by decide)).1⟩

/-- C10 (amended): for `2 ≤ hostBits ≤ 63` the machine argument
`1<<hostBits − 2` of the random draw equals `2^hostBits − 2` and is strictly
positive, so `rand.Intn` is well-defined (never the panic branch) and the
drawn host offset `d + 1` always lies in `[1, 2^hostBits − 2]`; at
`hostBits ≥ 64` the shift wraps, the argument is −2 and the panic branch is
reached. -/
theorem rand_draw_well_defined (net : IPNet) (h2 : 2 ≤ hostBits net)
    (hn63 : hostBits net ≤ 63) (raw : Nat) :
    intnArg (hostBits net) = (2 : Int) ^ hostBits net - 2 ∧
      0 < intnArg (hostBits net) ∧
      ∃ d : Int, randIntn (intnArg (hostBits net)) raw = some d ∧
        1 ≤ d + 1 ∧ d + 1 ≤ (2 : Int) ^ hostBits net - 2 := by
  have he := intnArg_small (hostBits net) hn63
  have hm : 0 < intnArg (hostBits net) := by
    rw [he]
    exact probe_pos (hostBits net) h2
  refine ⟨he, hm, (raw : Int) % intnArg (hostBits net), ?_, ?_, ?_⟩
  · simp only [randIntn, if_neg (by omega : ¬ intnArg (hostBits net) ≤ 0)]
  · have := Int.emod_nonneg (raw : Int) (by omega : intnArg (hostBits net) ≠ 0)
    omega
  · have := Int.emod_lt_of_pos (raw : Int) hm
    omega

/-- Witness for C10 on `192.168.0.100/30` with raw draw 7. -/
theorem rand_draw_well_defined_witness :
    (2 ≤ hostBits net30 ∧ hostBits net30 ≤ 63) ∧
      (intnArg (hostBits net30) = (2 : Int) ^ hostBits net30 - 2 ∧
        0 < intnArg (hostBits net30) ∧
        ∃ d : Int, randIntn (intnArg (hostBits net30)) 7 = some d ∧
          1 ≤ d + 1 ∧ d + 1 ≤ (2 : Int) ^ hostBits net30 - 2) :=
  ⟨⟨by decide, by decide⟩, rand_draw_well_defined net30 (by decide) (by decide) 7⟩

/-- C10 (counterexample): on the well-formed subnet `fe80::1/64` the shift in
`rand.Intn(1<<hostBits − 2)` wraps: the machine argument is −2, not the
positive `2^64 − 2`, `Intn` takes its panic branch on the very first draw, and
the probe session dies before emitting anything — `hostBits ≥ 2` alone does
not make the draw well-defined. -/
theorem rand_panic_reachable_on_wrapped_width :
    2 ≤ hostBits net64 ∧ intnArg (hostBits net64) = -2 ∧
      randIntn (intnArg (hostBits net64)) 7 = none ∧
      probeSession net64 phase0 (fun i => i) 1 = none := by
  have hb : hostBits net64 = 64 := by decide
  refine ⟨by decide, ?_, rfl, rfl⟩
  rw [hb, intnArg_wrap 64 le_rfl]

end Bootstrap
